import Mathlib

/-!
Verification of the distributed transaction protocol specification against the
repository sources.  The repository material under verification consists of the
transaction test suite (src/yb/client/ql-transaction-test.cc); the protocol
components it exercises (client transaction handle, transaction coordinator,
transaction participant, conflict resolver) are not part of the provided
sources, so they are modelled from the specification text and each such
definition is marked accordingly.
-/

namespace YB

/-- Hybrid timestamps are modelled as natural numbers; only their order and
arithmetic with the clock-skew bound matter here. -/
abbrev HybridTime := Nat

/-- Transaction status, from spec section 3: PENDING is the only non-terminal
client-visible state; COMMITTED and ABORTED are terminal. -/
inductive TransactionStatus where
  | PENDING
  | COMMITTED
  | ABORTED
  deriving DecidableEq, Repr

/-- From the source (ql-transaction-test.cc): the write operation kinds used by
the test helpers. -/
inductive WriteOpType where
  | INSERT
  | UPDATE
  | DELETE
  deriving DecidableEq, Repr

/-- From the source: GetMultiplier distinguishes inserted and updated values by
sign; the delete path does not use the value. -/
def GetMultiplier : WriteOpType → Int
  | .INSERT => 1
  | .UPDATE => -1
  | .DELETE => 0

/-- From the source: kNumRows = 5. -/
def kNumRows : Nat := 5

/-- From the source: KeyForTransactionAndIndex(transaction, index) =
transaction * 10 + index. -/
def KeyForTransactionAndIndex (transaction index : Nat) : Int :=
  Int.ofNat (transaction * 10 + index)

/-- From the source: ValueForTransactionAndIndex(transaction, index, op) =
(transaction * 10 + index + 2) * GetMultiplier(op). -/
def ValueForTransactionAndIndex (transaction index : Nat) (op : WriteOpType) : Int :=
  Int.ofNat (transaction * 10 + index + 2) * GetMultiplier op

/-- One committed version of a key: the hybrid time it became committed data and
the stored value. -/
structure Version where
  time : HybridTime
  value : Int
  deriving DecidableEq, Repr

/-- The committed history of one key: the set of committed versions, as a list. -/
abbrev KeyHistory := List Version

/-- Modelled from the spec: the committed read path of the storage collaborator
(spec section 6, missing from the sources): a read as of time t returns the
version with the greatest commit time that is at most t, if any. -/
def latestLE : KeyHistory → HybridTime → Option Version
  | [], _ => none
  | v :: rest, t =>
    match latestLE rest t with
    | none => if v.time ≤ t then some v else none
    | some w => if v.time ≤ t ∧ w.time < v.time then some v else some w

/-- The value read from a key history as of time t, if any version qualifies. -/
def readAt (h : KeyHistory) (t : HybridTime) : Option Int :=
  (latestLE h t).map Version.value

/-- Read point, from spec section 3: the read timestamp plus the uncertainty
ceiling global_limit = read_time + max_clock_skew. -/
structure ReadPoint where
  readTime : HybridTime
  globalLimit : HybridTime
  deriving DecidableEq, Repr

/-- Construction of a read point from the clock, spec section 3:
global_limit = read_time + max_clock_skew. -/
def makeReadPoint (readTime skew : HybridTime) : ReadPoint :=
  ⟨readTime, readTime + skew⟩

/-- Outcome of a snapshot read of one key, spec section 7: a value, NotFound, or
the RESTART_REQUIRED signal. -/
inductive ReadResult where
  | value (v : Int)
  | notFound
  | restartRequired
  deriving DecidableEq, Repr

/-- Modelled from the spec: the snapshot read of one committed key history under
a read point (missing read path of the transaction participant, spec sections
4.4 and 4.5): a committed version inside the uncertainty window
(read_time, global_limit] forces RESTART_REQUIRED; otherwise the latest version
at or before read_time is returned, and NotFound when there is none. -/
def readKey (h : KeyHistory) (rp : ReadPoint) : ReadResult :=
  if h.any (fun v => decide (rp.readTime < v.time) && decide (v.time ≤ rp.globalLimit)) then
    .restartRequired
  else
    match latestLE h rp.readTime with
    | some w => .value w.value
    | none => .notFound

/-- Provisional record from spec section 3: owning transaction, key, value and
write time, stored apart from committed data. -/
structure Intent where
  txn : Nat
  key : Int
  value : Int
  writeTime : HybridTime
  deriving DecidableEq, Repr

/-- Modelled from the spec: intent resolution during a read (missing transaction
participant, spec sections 4.5 and 4.6): an intent owned by a transaction whose
status record is COMMITTED with commit time t behaves as a committed version at
time t; intents of transactions without a commit decision are invisible to other
readers. -/
def effectiveHistory (h : KeyHistory) (intents : List Intent)
    (commitTimeOf : Nat → Option HybridTime) (k : Int) : KeyHistory :=
  h ++ intents.filterMap (fun i =>
    if i.key = k then (commitTimeOf i.txn).map (fun t => Version.mk t i.value) else none)

/-- Snapshot read of one key through both committed data and resolved intents. -/
def readKeyResolved (h : KeyHistory) (intents : List Intent)
    (commitTimeOf : Nat → Option HybridTime) (k : Int) (rp : ReadPoint) : ReadResult :=
  readKey (effectiveHistory h intents commitTimeOf k) rp

/-- The status record returned to a status query: status plus the status_time
hybrid timestamp, spec section 3. -/
structure StatusRecord where
  status : TransactionStatus
  statusTime : HybridTime
  deriving DecidableEq, Repr

/-- Modelled from the spec: evolution of the status record owned by the
transaction coordinator (missing coordinator, spec sections 3, 4.5 and 5):
status_time never decreases, PENDING may move to COMMITTED or ABORTED, and no
transition leaves a terminal status or changes its status_time. -/
inductive CoordStep : StatusRecord → StatusRecord → Prop where
  | stayPending (t u : HybridTime) (h : t ≤ u) :
      CoordStep ⟨.PENDING, t⟩ ⟨.PENDING, u⟩
  | commit (t u : HybridTime) (h : t ≤ u) :
      CoordStep ⟨.PENDING, t⟩ ⟨.COMMITTED, u⟩
  | abort (t u : HybridTime) (h : t ≤ u) :
      CoordStep ⟨.PENDING, t⟩ ⟨.ABORTED, u⟩

/-- Any number of coordinator record transitions. -/
def CoordReach : StatusRecord → StatusRecord → Prop :=
  Relation.ReflTransGen CoordStep

/-- From the source (WriteRows with a commit at time tw): committed history per
key produced by the test writer; key KeyForTransactionAndIndex txn r, for
r < kNumRows, holds a single version carrying
ValueForTransactionAndIndex txn r INSERT. -/
def writtenHistory (txn : Nat) (tw : HybridTime) (k : Int) : KeyHistory :=
  (List.range kNumRows).filterMap (fun r =>
    if KeyForTransactionAndIndex txn r = k then
      some (Version.mk tw (ValueForTransactionAndIndex txn r WriteOpType.INSERT))
    else none)

/-- From the source (CorrectStatusRequestBatching): a writer commits value i at
time times i for i = 1 .. n, each commit strictly after the previous one; the
committed history of the contended key after n writes. -/
def counterHistory (times : Nat → HybridTime) (n : Nat) : KeyHistory :=
  (List.range n).map (fun i => Version.mk (times (i + 1)) (Int.ofNat (i + 1)))

/-- A writing transaction in the conflict tests: id, priority, and the rows it
writes, as (key, value) pairs. -/
structure TxnW where
  id : Nat
  priority : Nat
  writes : List (Int × Int)
  deriving DecidableEq, Repr

/-- Modelled from the spec: the conflict resolver total order (spec section
4.3): a beats b when a has strictly higher priority, ties broken by transaction
id so the relation is a total order on distinct transactions. -/
def beats (a b : TxnW) : Bool :=
  b.priority < a.priority || (b.priority == a.priority && b.id < a.id)

/-- Modelled from the spec: in a set of pairwise write-write conflicting
transactions the resolver lets a transaction survive (commit) exactly when it
beats every other member; everyone else is asked to abort (missing conflict
resolver, spec section 4.3). -/
def survives (ts : List TxnW) (t : TxnW) : Bool :=
  ts.all (fun u => u.id == t.id || beats t u)

/-- Lookup of a written value in a (key, value) write set. -/
def lookupWrite (ws : List (Int × Int)) (k : Int) : Option Int :=
  (ws.find? (fun p => p.1 == k)).map (fun p => p.2)

/-- Applying one committed write set atomically over a store. -/
def applyWrites (st : Int → Option Int) (ws : List (Int × Int)) : Int → Option Int :=
  fun k =>
    match lookupWrite ws k with
    | some v => some v
    | none => st k

/-- Modelled from the spec: the store left after the concurrent commit race:
every transaction the resolver let survive is committed and its writes are
applied atomically, aborted losers leave nothing (missing participant
apply/abort path, spec sections 4.3 and 4.6). -/
def finalStore (ts : List TxnW) : Int → Option Int :=
  ts.foldl (fun st t => if survives ts t then applyWrites st t.writes else st) (fun _ => none)

/-- Child transaction result, spec section 3: the involved-partition set
reported back to the parent. -/
structure ChildTransactionResult where
  involved : List Nat
  deriving DecidableEq, Repr

/-- Modelled from the spec: the protocol state relevant to child composition
(missing client transaction handle and coordinator, spec sections 3 and 4.4):
the status record of the shared transaction id, its commit time, the intents
written under that id, and the involved-partition sets of parent and child. -/
structure ChildSysState where
  status : TransactionStatus
  commitTime : Option HybridTime
  intents : List Intent
  parentInvolved : List Nat
  childInvolved : List Nat
  deriving DecidableEq, Repr

/-- A write issued through the child execution context: it only adds an intent
under the shared transaction id and records the touched partition. -/
def childWrite (s : ChildSysState) (txn : Nat) (k v : Int) (wt : HybridTime)
    (touched : Nat) : ChildSysState :=
  { s with
    intents := s.intents ++ [⟨txn, k, v, wt⟩],
    childInvolved := s.childInvolved ++ [touched] }

/-- From the source (QLTransactionTest.Child): the child writes the kNumRows
rows of WriteRows under the parent transaction id 0. -/
def childWrites (s : ChildSysState) (wt : HybridTime) : ChildSysState :=
  (List.range kNumRows).foldl (fun s2 r =>
    childWrite s2 0 (KeyForTransactionAndIndex 0 r)
      (ValueForTransactionAndIndex 0 r WriteOpType.INSERT) wt 0) s

/-- Modelled from the spec: FinishChild only reports the child involved
partitions back to the parent; it never contacts the coordinator, so the status
record is untouched (spec sections 3 and 4.4: a child never independently
commits or aborts). -/
def finishChild (s : ChildSysState) : ChildSysState × ChildTransactionResult :=
  (s, ⟨s.childInvolved⟩)

/-- Modelled from the spec: ApplyChildResult merges the child touched-partition
set into the parent (spec section 4.4). -/
def applyChildResult (s : ChildSysState) (r : ChildTransactionResult) : ChildSysState :=
  { s with parentInvolved := s.parentInvolved ++ r.involved }

/-- Modelled from the spec: the parent commit records COMMITTED with the chosen
commit time; commit of an already terminal transaction changes nothing (spec
sections 4.4 and 4.5). -/
def parentCommit (s : ChildSysState) (ct : HybridTime) : ChildSysState :=
  if s.status = .PENDING then { s with status := .COMMITTED, commitTime := some ct } else s

/-- The commit-time oracle other readers consult for the shared transaction id:
a commit time exists exactly when the status record says COMMITTED. -/
def commitOracle (s : ChildSysState) : Nat → Option HybridTime :=
  fun _ => match s.status with
    | .COMMITTED => s.commitTime
    | _ => none

/-- What another reader under read point rp observes for key k in the child
composition state: committed data is empty in the scenario, so visibility is
entirely through resolved intents. -/
def visibleValue (s : ChildSysState) (k : Int) (rp : ReadPoint) : ReadResult :=
  readKeyResolved [] s.intents (commitOracle s) k rp

/-- Modelled from the spec: the coordinator record used for heartbeat tracking
(missing coordinator, spec sections 4.4 and 4.5). -/
structure HeartbeatRecord where
  lastHeartbeat : HybridTime
  status : TransactionStatus
  deriving DecidableEq, Repr

/-- A heartbeat refreshes the liveness timestamp of a pending transaction. -/
def heartbeat (r : HeartbeatRecord) (now : HybridTime) : HeartbeatRecord :=
  if r.status = .PENDING then { r with lastHeartbeat := max r.lastHeartbeat now } else r

/-- The expiry deadline, spec sections 4.4 and 8:
heartbeat_interval * missed_heartbeat_periods. -/
def transactionTimeout (heartbeatInterval missedPeriods : Nat) : Nat :=
  heartbeatInterval * missedPeriods

/-- Modelled from the spec: if heartbeats ceased for longer than the timeout the
coordinator unilaterally marks the transaction ABORTED (spec section 4.4). -/
def checkExpiry (r : HeartbeatRecord) (now timeout : Nat) : HeartbeatRecord :=
  if r.status = .PENDING ∧ r.lastHeartbeat + timeout < now then
    { r with status := .ABORTED }
  else r

/-- Outcome of a commit request at the coordinator. -/
inductive CommitOutcome where
  | ok
  | expired
  deriving DecidableEq, Repr

/-- Modelled from the spec: a commit request first applies the expiry check; a
still-pending transaction commits, a transaction aborted by expiry reports
Expired (spec sections 4.5, 7 and 8). -/
def requestCommit (r : HeartbeatRecord) (now timeout : Nat) :
    CommitOutcome × HeartbeatRecord :=
  let r2 := checkExpiry r now timeout
  if r2.status = .PENDING then (.ok, { r2 with status := .COMMITTED })
  else (.expired, r2)

/-- Modelled from the spec: cleanup discards the bookkeeping of an aborted
transaction (spec section 4.5). -/
def cleanupRecord : Option HeartbeatRecord → Option HeartbeatRecord
  | some r => if r.status = .ABORTED then none else some r
  | none => none

/-- The transaction count reported by test_count_transactions for one record
slot. -/
def recordCount : Option HeartbeatRecord → Nat
  | some _ => 1
  | none => 0

/-- State of one transaction participant: the committed store and the live
intents on its partition. -/
structure ParticipantState where
  committed : Int → KeyHistory
  intents : List Intent

/-- Modelled from the spec: Discard removes the intents of one transaction
without materializing them and never touches committed data (missing
participant, spec section 4.6). -/
def discardTxn (s : ParticipantState) (txn : Nat) : ParticipantState :=
  { s with intents := s.intents.filter (fun i => i.txn != txn) }

/-- Modelled from the spec: a compaction/cleanup pass removes every intent whose
owning transaction is ABORTED and never touches committed data (missing
participant cleanup path, spec sections 4.6 and 8). -/
def compactCleanup (s : ParticipantState) (statusOf : Nat → TransactionStatus) :
    ParticipantState :=
  { s with intents := s.intents.filter (fun i => statusOf i.txn != TransactionStatus.ABORTED) }

/-- The intent count reported by TEST_CountIntents. -/
def countIntents (s : ParticipantState) : Nat :=
  s.intents.length

/-- Snapshot read of key k through a participant state, resolving intents
through the commit-time oracle. -/
def readInState (s : ParticipantState) (commitTimeOf : Nat → Option HybridTime)
    (k : Int) (rp : ReadPoint) : ReadResult :=
  readKeyResolved (s.committed k) s.intents commitTimeOf k rp

/-- Modelled from the spec: the intent write path of one transaction, as a
(key, value) association list: a repeated write to the same key overwrites the
existing intent, last write wins within the transaction (spec section 3,
Intent; missing participant write path). -/
def writeIntentList (m : List (Int × Int)) (k v : Int) : List (Int × Int) :=
  if m.any (fun p => p.1 == k) then m.map (fun p => if p.1 == k then (k, v) else p)
  else m ++ [(k, v)]

/-- From the source: WriteDataWithRepetition writes each of the kNumRows rows
10 times, with offsets j = 9 down to 0 added to the base value, so the final
write of row r carries exactly ValueForTransactionAndIndex 0 r INSERT. -/
def writeDataWithRepetition : List (Int × Int) :=
  (List.range kNumRows).foldl (fun m r =>
    ((List.range 10).reverse).foldl (fun m2 j =>
      writeIntentList m2 (KeyForTransactionAndIndex 0 r)
        (ValueForTransactionAndIndex 0 r WriteOpType.INSERT + Int.ofNat j)) m) []

/-- The intents held by transaction txn for a (key, value) intent map. -/
def intentsOfMap (m : List (Int × Int)) (txn : Nat) (wt : HybridTime) : List Intent :=
  m.map (fun p => ⟨txn, p.1, p.2, wt⟩)

/-- Modelled from the spec: Apply materializes every intent of the transaction
as a committed version at the commit time and removes the intents (spec section
4.6); shown here as the committed store it leaves behind. -/
def applyIntentsTo (committed : Int → KeyHistory) (m : List (Int × Int))
    (tc : HybridTime) : Int → KeyHistory :=
  fun k =>
    match lookupWrite m k with
    | some v => committed k ++ [⟨tc, v⟩]
    | none => committed k

/-- The child-composition scenario of the Child test: starting from a fresh
pending transaction with no intents, the child writes the WriteRows rows under
the shared id at write time wt, then FinishChild reports back. -/
def childAfterFinish (wt : HybridTime) : ChildSysState × ChildTransactionResult :=
  finishChild (childWrites ⟨.PENDING, none, [], [], []⟩ wt)

/-- The scenario continued: ApplyChildResult merges the child result into the
parent, then the parent commits at time ct. -/
def childAfterCommit (wt ct : HybridTime) : ChildSysState :=
  parentCommit (applyChildResult (childAfterFinish wt).1 (childAfterFinish wt).2) ct

/-! ## Helper lemmas about the committed read path -/

theorem latestLE_cons (v : Version) (rest : KeyHistory) (t : HybridTime) :
    latestLE (v :: rest) t =
      match latestLE rest t with
      | none => if v.time ≤ t then some v else none
      | some w => if v.time ≤ t ∧ w.time < v.time then some v else some w := rfl

theorem latestLE_mem {h : KeyHistory} {t : HybridTime} {w : Version}
    (hw : latestLE h t = some w) : w ∈ h := by
  induction h generalizing w with
  | nil => simp [latestLE] at hw
  | cons v rest ih =>
    cases hrec : latestLE rest t with
    | none =>
      simp only [latestLE_cons, hrec] at hw
      by_cases hc : v.time ≤ t
      · rw [if_pos hc] at hw
        cases hw
        exact List.mem_cons_self _ _
      · rw [if_neg hc] at hw
        exact absurd hw (by simp)
    | some w2 =>
      simp only [latestLE_cons, hrec] at hw
      by_cases hc : v.time ≤ t ∧ w2.time < v.time
      · rw [if_pos hc] at hw
        cases hw
        exact List.mem_cons_self _ _
      · rw [if_neg hc] at hw
        cases hw
        exact List.mem_cons_of_mem v (ih hrec)

theorem latestLE_time_le {h : KeyHistory} {t : HybridTime} {w : Version}
    (hw : latestLE h t = some w) : w.time ≤ t := by
  induction h generalizing w with
  | nil => simp [latestLE] at hw
  | cons v rest ih =>
    cases hrec : latestLE rest t with
    | none =>
      simp only [latestLE_cons, hrec] at hw
      by_cases hc : v.time ≤ t
      · rw [if_pos hc] at hw
        cases hw
        exact hc
      · rw [if_neg hc] at hw
        exact absurd hw (by simp)
    | some w2 =>
      simp only [latestLE_cons, hrec] at hw
      by_cases hc : v.time ≤ t ∧ w2.time < v.time
      · rw [if_pos hc] at hw
        cases hw
        exact hc.1
      · rw [if_neg hc] at hw
        cases hw
        exact ih hrec

theorem latestLE_eq_none {h : KeyHistory} {t : HybridTime}
    (hn : latestLE h t = none) : ∀ v ∈ h, ¬ v.time ≤ t := by
  induction h with
  | nil => simp
  | cons v rest ih =>
    intro u hu
    cases hrec : latestLE rest t with
    | none =>
      simp only [latestLE_cons, hrec] at hn
      by_cases hc : v.time ≤ t
      · rw [if_pos hc] at hn
        exact absurd hn (by simp)
      · rw [if_neg hc] at hn
        rcases List.mem_cons.mp hu with rfl | humem
        · exact hc
        · exact ih hrec u humem
    | some w2 =>
      simp only [latestLE_cons, hrec] at hn
      by_cases hc : v.time ≤ t ∧ w2.time < v.time
      · rw [if_pos hc] at hn
        exact absurd hn (by simp)
      · rw [if_neg hc] at hn
        exact absurd hn (by simp)

theorem latestLE_max {h : KeyHistory} {t : HybridTime} {w : Version}
    (hw : latestLE h t = some w) :
    ∀ v ∈ h, v.time ≤ t → v.time ≤ w.time := by
  induction h generalizing w with
  | nil => simp
  | cons v rest ih =>
    intro u hu hut
    cases hrec : latestLE rest t with
    | none =>
      simp only [latestLE_cons, hrec] at hw
      by_cases hc : v.time ≤ t
      · rw [if_pos hc] at hw
        cases hw
        rcases List.mem_cons.mp hu with rfl | humem
        · exact le_refl _
        · exact absurd hut (latestLE_eq_none hrec u humem)
      · rw [if_neg hc] at hw
        exact absurd hw (by simp)
    | some w2 =>
      simp only [latestLE_cons, hrec] at hw
      by_cases hc : v.time ≤ t ∧ w2.time < v.time
      · rw [if_pos hc] at hw
        cases hw
        rcases List.mem_cons.mp hu with rfl | humem
        · exact le_refl _
        · exact le_trans (ih hrec u humem hut) (le_of_lt hc.2)
      · rw [if_neg hc] at hw
        cases hw
        rcases List.mem_cons.mp hu with rfl | humem
        · rcases not_and_or.mp hc with hbad | hle
          · exact absurd hut hbad
          · exact le_of_not_lt hle
        · exact ih hrec u humem hut

theorem latestLE_isSome {h : KeyHistory} {t : HybridTime} {v : Version}
    (hv : v ∈ h) (hvt : v.time ≤ t) : ∃ w, latestLE h t = some w := by
  cases hres : latestLE h t with
  | none => exact absurd hvt (latestLE_eq_none hres v hv)
  | some w => exact ⟨w, rfl⟩

theorem latestLE_mono {h : KeyHistory} {t t2 : HybridTime} {w : Version}
    (htt : t ≤ t2) (hw : latestLE h t = some w) :
    ∃ w2, latestLE h t2 = some w2 ∧ w.time ≤ w2.time := by
  obtain ⟨w2, hw2⟩ :=
    latestLE_isSome (latestLE_mem hw) (le_trans (latestLE_time_le hw) htt)
  exact ⟨w2, hw2,
    latestLE_max hw2 w (latestLE_mem hw) (le_trans (latestLE_time_le hw) htt)⟩

theorem latestLE_append_gt {h : KeyHistory} {t : HybridTime} {x : Version}
    (hx : t < x.time) : latestLE (h ++ [x]) t = latestLE h t := by
  induction h with
  | nil =>
    show (if x.time ≤ t then some x else none) = none
    exact if_neg (not_le.mpr hx)
  | cons v rest ih =>
    rw [List.cons_append, latestLE_cons, latestLE_cons, ih]

/-! ## Helper lemmas about snapshot reads -/

theorem readKey_nil (rp : ReadPoint) : readKey [] rp = .notFound := rfl

theorem readKey_singleton_restart {tw : HybridTime} {v : Int} {rp : ReadPoint}
    (h1 : rp.readTime < tw) (h2 : tw ≤ rp.globalLimit) :
    readKey [⟨tw, v⟩] rp = .restartRequired := by
  simp [readKey, h1, h2]

theorem readKey_singleton_value {tw : HybridTime} {v : Int} {rp : ReadPoint}
    (h : tw ≤ rp.readTime) : readKey [⟨tw, v⟩] rp = .value v := by
  have hnot : ¬ rp.readTime < tw := not_lt.mpr h
  simp [readKey, hnot, latestLE, h]

theorem readKey_append_future {h : KeyHistory} {rp : ReadPoint} {x : Version}
    (hrp : rp.readTime ≤ rp.globalLimit) (hx : rp.globalLimit < x.time) :
    readKey (h ++ [x]) rp = readKey h rp := by
  have h1 : latestLE (h ++ [x]) rp.readTime = latestLE h rp.readTime :=
    latestLE_append_gt (lt_of_le_of_lt hrp hx)
  have h2 : (h ++ [x]).any
        (fun v => decide (rp.readTime < v.time) && decide (v.time ≤ rp.globalLimit)) =
      h.any (fun v => decide (rp.readTime < v.time) && decide (v.time ≤ rp.globalLimit)) := by
    rw [List.any_append]
    have hxf : ¬ x.time ≤ rp.globalLimit := not_le.mpr hx
    simp [hxf]
  simp only [readKey, h1, h2]

theorem readKey_pair_value {t0 tA : HybridTime} {v0 vA : Int} {rp : ReadPoint}
    (h0A : t0 < tA) (hA : tA ≤ rp.readTime) :
    readKey [⟨t0, v0⟩, ⟨tA, vA⟩] rp = .value vA := by
  have h0r : t0 ≤ rp.readTime := le_trans (le_of_lt h0A) hA
  have hn0 : ¬ rp.readTime < t0 := not_lt.mpr h0r
  have hnA : ¬ rp.readTime < tA := not_lt.mpr hA
  have hnA0 : ¬ tA < t0 := not_lt.mpr (le_of_lt h0A)
  simp [readKey, latestLE, hn0, hnA, hA, h0r, hnA0]

/-! ## Helper lemmas about the coordinator status record -/

theorem coordStep_time_mono {a b : StatusRecord} (h : CoordStep a b) :
    a.statusTime ≤ b.statusTime := by
  cases h <;> assumption

theorem coordStep_not_terminal {a b : StatusRecord} (h : CoordStep a b)
    (ha : a.status ≠ TransactionStatus.PENDING) : False := by
  cases h <;> exact ha rfl

theorem coordReach_time_mono {a b : StatusRecord} (h : CoordReach a b) :
    a.statusTime ≤ b.statusTime := by
  induction h with
  | refl => exact le_refl _
  | tail _ hstep ih => exact le_trans ih (coordStep_time_mono hstep)

theorem coordReach_terminal {a b : StatusRecord} (h : CoordReach a b)
    (ha : a.status ≠ TransactionStatus.PENDING) : b = a := by
  induction h with
  | refl => rfl
  | tail _ hstep ih =>
    subst ih
    exact (coordStep_not_terminal hstep ha).elim

/-- C1: for every transaction id, across any sequence of status queries by any
observer the returned status_time is non-decreasing, and once a terminal status
(COMMITTED or ABORTED) has been observed, every subsequent query reports the
same terminal status with an unchanged status_time and never reports PENDING
again.  The observations are any sequence of snapshots of the coordinator
record, consecutive ones separated by any number of CoordStep transitions. -/
theorem C1_status_monotonic (obs : Nat → StatusRecord)
    (hstep : ∀ n, CoordReach (obs n) (obs (n + 1))) (i j : Nat) (hij : i ≤ j) :
    (obs i).statusTime ≤ (obs j).statusTime ∧
      ((obs i).status ≠ TransactionStatus.PENDING →
        obs j = obs i ∧ (obs j).status ≠ TransactionStatus.PENDING) := by
  have hreach : CoordReach (obs i) (obs j) := by
    induction j, hij using Nat.le_induction with
    | base => exact Relation.ReflTransGen.refl
    | succ n hn ih => exact Relation.ReflTransGen.trans ih (hstep n)
  refine ⟨coordReach_time_mono hreach, fun hterm => ?_⟩
  have heq := coordReach_terminal hreach hterm
  exact ⟨heq, by rw [heq]; exact hterm⟩

/-- Witness for C1 at a concrete observation sequence. -/
theorem C1_status_monotonic_witness :
    ((fun _ : Nat => StatusRecord.mk TransactionStatus.COMMITTED 7) 0).statusTime ≤
        ((fun _ : Nat => StatusRecord.mk TransactionStatus.COMMITTED 7) 2).statusTime ∧
      (((fun _ : Nat => StatusRecord.mk TransactionStatus.COMMITTED 7) 0).status ≠
          TransactionStatus.PENDING →
        (fun _ : Nat => StatusRecord.mk TransactionStatus.COMMITTED 7) 2 =
            (fun _ : Nat => StatusRecord.mk TransactionStatus.COMMITTED 7) 0 ∧
          ((fun _ : Nat => StatusRecord.mk TransactionStatus.COMMITTED 7) 2).status ≠
            TransactionStatus.PENDING) :=
  C1_status_monotonic (fun _ => StatusRecord.mk TransactionStatus.COMMITTED 7)
    (fun _ => Relation.ReflTransGen.refl) 0 2 (by decide)

theorem writtenHistory_at_key (tw : HybridTime) (r : Nat) (hr : r < kNumRows) :
    writtenHistory 0 tw (KeyForTransactionAndIndex 0 r) =
      [⟨tw, ValueForTransactionAndIndex 0 r WriteOpType.INSERT⟩] := by
  have hr5 : r < 5 := hr
  interval_cases r <;> rfl

/-- C2: for every key written and committed by one transaction, a read of that
key by a snapshot transaction whose read point is skewed earlier than the
commit time of the write (within max_clock_skew) returns no value and fails
with RestartRequired, and after obtaining a restarted transaction whose read
time is advanced past the write, reading the same keys returns exactly the
written values. -/
theorem C2_read_restart (r : Nat) (hr : r < kNumRows) (tw : HybridTime)
    (rp rp2 : ReadPoint) (h1 : rp.readTime < tw) (h2 : tw ≤ rp.globalLimit)
    (h3 : tw ≤ rp2.readTime) :
    readKey (writtenHistory 0 tw (KeyForTransactionAndIndex 0 r)) rp =
        ReadResult.restartRequired ∧
      readKey (writtenHistory 0 tw (KeyForTransactionAndIndex 0 r)) rp2 =
        ReadResult.value (ValueForTransactionAndIndex 0 r WriteOpType.INSERT) := by
  rw [writtenHistory_at_key tw r hr]
  exact ⟨readKey_singleton_restart h1 h2, readKey_singleton_value h3⟩

/-- Witness for C2 at row 0, commit time 10, skewed read point (5, 10) and
restarted read point (12, 12). -/
theorem C2_read_restart_witness :
    readKey (writtenHistory 0 10 (KeyForTransactionAndIndex 0 0)) ⟨5, 10⟩ =
        ReadResult.restartRequired ∧
      readKey (writtenHistory 0 10 (KeyForTransactionAndIndex 0 0)) ⟨12, 12⟩ =
        ReadResult.value (ValueForTransactionAndIndex 0 0 WriteOpType.INSERT) :=
  C2_read_restart 0 (by decide) 10 ⟨5, 10⟩ ⟨12, 12⟩ (by decide) (by decide) (by decide)

/-- C3: for every snapshot transaction B reading at read point rp, the commit of
another transaction A ordered after the read point (commit time above the
uncertainty ceiling) does not change what B reads: the affected key returns the
same pre-A value before and after the commit of A, also when the commit lands
between two reads of B, while a fresh read started after the commit of A
observes the value of A. -/
theorem C3_snapshot_isolation (t0 : HybridTime) (v0 : Int) (tA : HybridTime)
    (vA : Int) (rp : ReadPoint) (hrp : rp.readTime ≤ rp.globalLimit)
    (h0 : t0 ≤ rp.readTime) (hA : rp.globalLimit < tA) :
    readKey [⟨t0, v0⟩] rp = ReadResult.value v0 ∧
      readKey ([⟨t0, v0⟩] ++ [⟨tA, vA⟩]) rp = ReadResult.value v0 ∧
      (∀ rp2 : ReadPoint, tA ≤ rp2.readTime →
        readKey ([⟨t0, v0⟩] ++ [⟨tA, vA⟩]) rp2 = ReadResult.value vA) := by
  have hbefore : readKey [⟨t0, v0⟩] rp = .value v0 := readKey_singleton_value h0
  refine ⟨hbefore, ?_, ?_⟩
  · rw [readKey_append_future hrp hA]
    exact hbefore
  · intro rp2 h2
    have h0A : t0 < tA := lt_of_le_of_lt (le_trans h0 hrp) hA
    exact readKey_pair_value h0A h2

/-- Witness for C3: initial version (1, 5), commit of A at (10, 7), B reading at
(2, 3), a fresh reader at (11, 12). -/
theorem C3_snapshot_isolation_witness :
    readKey [⟨1, 5⟩] ⟨2, 3⟩ = ReadResult.value 5 ∧
      readKey ([⟨1, 5⟩] ++ [⟨10, 7⟩]) ⟨2, 3⟩ = ReadResult.value 5 ∧
      readKey ([⟨1, 5⟩] ++ [⟨10, 7⟩]) ⟨11, 12⟩ = ReadResult.value 7 :=
  have h := C3_snapshot_isolation 1 5 10 7 ⟨2, 3⟩ (by decide) (by decide) (by decide)
  ⟨h.1, h.2.1, h.2.2 ⟨11, 12⟩ (by decide)⟩

theorem effectiveHistory_pending (h : KeyHistory) (intents : List Intent)
    (ct : Nat → Option HybridTime) (k : Int)
    (hp : ∀ i ∈ intents, ct i.txn = none) :
    effectiveHistory h intents ct k = h := by
  have hnone : ∀ i ∈ intents,
      (if i.key = k then (ct i.txn).map (fun t => Version.mk t i.value) else none) = none := by
    intro i hi
    rw [hp i hi]
    split <;> rfl
  rw [effectiveHistory, List.filterMap_eq_nil_iff.mpr hnone, List.append_nil]

/-- C10: if the transaction that wrote intents on a key has not committed, a
snapshot read of that key by another transaction does not signal
RestartRequired and does not observe the intents: the read equals the read of
the committed history alone, and for a key with no prior committed value it
returns NotFound. -/
theorem C10_pending_intents_invisible (h : KeyHistory) (intents : List Intent)
    (ct : Nat → Option HybridTime) (k : Int) (rp : ReadPoint)
    (hp : ∀ i ∈ intents, ct i.txn = none) :
    readKeyResolved h intents ct k rp = readKey h rp ∧
      (h = [] → readKeyResolved h intents ct k rp = ReadResult.notFound) := by
  have heq : readKeyResolved h intents ct k rp = readKey h rp := by
    rw [readKeyResolved, effectiveHistory_pending h intents ct k hp]
  refine ⟨heq, fun hnil => ?_⟩
  rw [heq, hnil]
  rfl

/-- Witness for C10: one pending intent of transaction 3 on key 0, empty
committed history, read point (5, 6). -/
theorem C10_pending_intents_invisible_witness :
    readKeyResolved [] [⟨3, 0, 42, 1⟩] (fun _ => none) 0 ⟨5, 6⟩ = readKey [] ⟨5, 6⟩ ∧
      (([] : KeyHistory) = [] →
        readKeyResolved [] [⟨3, 0, 42, 1⟩] (fun _ => none) 0 ⟨5, 6⟩ =
          ReadResult.notFound) :=
  C10_pending_intents_invisible [] [⟨3, 0, 42, 1⟩] (fun _ => none) 0 ⟨5, 6⟩
    (fun _ _ => rfl)

theorem counterHistory_mem {times : Nat → HybridTime} {m : Nat} {v : Version}
    (hv : v ∈ counterHistory times m) :
    ∃ i, i < m ∧ v = ⟨times (i + 1), Int.ofNat (i + 1)⟩ := by
  rw [counterHistory] at hv
  obtain ⟨i, hi, hvi⟩ := List.mem_map.mp hv
  exact ⟨i, List.mem_range.mp hi, hvi.symm⟩

/-- C8: for every key, once a read under read time R has observed a committed
value v, every later read under any read time R2 at or above R observes a value
at least as new as v; in particular, a read started after the monotonically
increasing counter reached value n returns a value at least n. -/
theorem C8_monotonic_reads (times : Nat → HybridTime) (m : Nat) (R R2 : HybridTime)
    (hmono : StrictMono times) (hR : R ≤ R2) :
    (∀ v : Int, readAt (counterHistory times m) R = some v →
      ∃ v2 : Int, readAt (counterHistory times m) R2 = some v2 ∧ v ≤ v2) ∧
    (∀ n : Nat, 0 < n → n ≤ m → times n ≤ R →
      ∃ v : Int, readAt (counterHistory times m) R = some v ∧ (n : Int) ≤ v) := by
  constructor
  · intro v hv
    simp only [readAt] at hv
    cases hlat : latestLE (counterHistory times m) R with
    | none => simp [hlat] at hv
    | some w =>
      rw [hlat] at hv
      simp only [Option.map_some'] at hv
      obtain ⟨w2, hw2, htime⟩ := latestLE_mono hR hlat
      refine ⟨w2.value, by simp [readAt, hw2], ?_⟩
      obtain ⟨i, him, hi⟩ := counterHistory_mem (latestLE_mem hlat)
      obtain ⟨j, hjm, hj⟩ := counterHistory_mem (latestLE_mem hw2)
      have hv2 : w.value = v := Option.some_inj.mp hv
      rw [← hv2]
      subst hi
      subst hj
      simp only at htime ⊢
      exact Int.ofNat_le.mpr (hmono.le_iff_le.mp htime)
  · intro n hn hnm hnR
    have hmem : (⟨times n, Int.ofNat n⟩ : Version) ∈ counterHistory times m := by
      rw [counterHistory]
      refine List.mem_map.mpr ⟨n - 1, List.mem_range.mpr (by omega), ?_⟩
      have hcancel : n - 1 + 1 = n := Nat.sub_add_cancel hn
      rw [hcancel]
    obtain ⟨w, hw⟩ := latestLE_isSome hmem hnR
    refine ⟨w.value, by simp [readAt, hw], ?_⟩
    have htime : times n ≤ w.time := latestLE_max hw _ hmem hnR
    obtain ⟨j, hjm, hj⟩ := counterHistory_mem (latestLE_mem hw)
    subst hj
    simp only at htime ⊢
    exact Int.ofNat_le.mpr (hmono.le_iff_le.mp htime)

/-- Witness for C8: identity clock, counter history of length 3, earlier read at
time 2 and later read at time 3. -/
theorem C8_monotonic_reads_witness :
    (∃ v2 : Int, readAt (counterHistory (fun i => i) 3) 3 = some v2 ∧ 2 ≤ v2) ∧
      (∃ v : Int, readAt (counterHistory (fun i => i) 3) 2 = some v ∧ (2 : Int) ≤ v) :=
  have h := C8_monotonic_reads (fun i => i) 3 2 3 (fun _ _ hab => hab) (by decide)
  ⟨h.1 2 (by decide), h.2 2 (by decide) (by decide) (by decide)⟩

set_option maxRecDepth 8192

/-- C9: if a transaction writes the same key several times before committing,
the later writes overwrite the earlier intent for that key, so the intent map
holds one entry per row carrying the last written value, and after commit every
reader observes exactly that last value, both when the intents have been applied
and while they are still pending and resolved through the commit record. -/
theorem C9_last_write_wins (r : Nat) (hr : r < kNumRows) (tc wt : HybridTime)
    (rp : ReadPoint) (hread : tc ≤ rp.readTime) :
    lookupWrite writeDataWithRepetition (KeyForTransactionAndIndex 0 r) =
        some (ValueForTransactionAndIndex 0 r WriteOpType.INSERT) ∧
      writeDataWithRepetition.length = kNumRows ∧
      readKey (applyIntentsTo (fun _ => []) writeDataWithRepetition tc
          (KeyForTransactionAndIndex 0 r)) rp =
        ReadResult.value (ValueForTransactionAndIndex 0 r WriteOpType.INSERT) ∧
      readKeyResolved [] (intentsOfMap writeDataWithRepetition 0 wt)
          (fun t => if t = 0 then some tc else none)
          (KeyForTransactionAndIndex 0 r) rp =
        ReadResult.value (ValueForTransactionAndIndex 0 r WriteOpType.INSERT) := by
  have hr5 : r < 5 := hr
  interval_cases r <;>
    exact ⟨by decide, by decide, readKey_singleton_value hread,
      readKey_singleton_value hread⟩

/-- Witness for C9 at row 0, commit time 3, write time 1, read point (4, 5). -/
theorem C9_last_write_wins_witness :
    lookupWrite writeDataWithRepetition (KeyForTransactionAndIndex 0 0) =
        some (ValueForTransactionAndIndex 0 0 WriteOpType.INSERT) ∧
      writeDataWithRepetition.length = kNumRows ∧
      readKey (applyIntentsTo (fun _ => []) writeDataWithRepetition 3
          (KeyForTransactionAndIndex 0 0)) ⟨4, 5⟩ =
        ReadResult.value (ValueForTransactionAndIndex 0 0 WriteOpType.INSERT) ∧
      readKeyResolved [] (intentsOfMap writeDataWithRepetition 0 1)
          (fun t => if t = 0 then some 3 else none)
          (KeyForTransactionAndIndex 0 0) ⟨4, 5⟩ =
        ReadResult.value (ValueForTransactionAndIndex 0 0 WriteOpType.INSERT) :=
  C9_last_write_wins 0 (by decide) 3 1 ⟨4, 5⟩ (by decide)

/-! ## Helper lemmas about the conflict resolver order -/

theorem beats_iff {a b : TxnW} :
    beats a b = true ↔
      b.priority < a.priority ∨ (b.priority = a.priority ∧ b.id < a.id) := by
  simp [beats, Bool.or_eq_true, Bool.and_eq_true, decide_eq_true_eq, beq_iff_eq]

theorem beats_trans {a b c : TxnW} (hab : beats a b = true)
    (hbc : beats b c = true) : beats a c = true := by
  rw [beats_iff] at hab hbc ⊢
  rcases hab with h1 | ⟨h1, h2⟩ <;> rcases hbc with h3 | ⟨h3, h4⟩ <;> omega

theorem beats_total {a b : TxnW} (hne : a.id ≠ b.id) :
    beats a b = true ∨ beats b a = true := by
  rw [beats_iff, beats_iff]
  omega

theorem beats_asymm {a b : TxnW} (h1 : beats a b = true)
    (h2 : beats b a = true) : False := by
  rw [beats_iff] at h1 h2
  omega

theorem survives_spec {ts : List TxnW} {t : TxnW} (h : survives ts t = true) :
    ∀ u ∈ ts, u.id = t.id ∨ beats t u = true := by
  intro u hu
  have hu2 := List.all_eq_true.mp h u hu
  simp only [Bool.or_eq_true, beq_iff_eq] at hu2
  exact hu2

theorem survives_of (ts : List TxnW) (t : TxnW)
    (h : ∀ u ∈ ts, u.id = t.id ∨ beats t u = true) : survives ts t = true := by
  rw [survives, List.all_eq_true]
  intro u hu
  rcases h u hu with heq | hb
  · simp [heq]
  · simp [hb]

theorem nodup_map_id_eq {l : List TxnW} (hnd : (l.map TxnW.id).Nodup)
    {u m : TxnW} (hu : u ∈ l) (hm : m ∈ l) (heq : u.id = m.id) : u = m :=
  List.inj_on_of_nodup_map hnd hu hm heq

theorem exists_beats_all (ts : List TxnW) (hnd : (ts.map TxnW.id).Nodup) :
    ts = [] ∨ ∃ t ∈ ts, ∀ u ∈ ts, u.id = t.id ∨ beats t u = true := by
  induction ts with
  | nil => exact Or.inl rfl
  | cons a rest ih =>
    right
    have hnd2 : (rest.map TxnW.id).Nodup := by
      rw [List.map_cons] at hnd
      exact (List.nodup_cons.mp hnd).2
    have hanotin : a.id ∉ rest.map TxnW.id := by
      rw [List.map_cons] at hnd
      exact (List.nodup_cons.mp hnd).1
    rcases ih hnd2 with rfl | ⟨m, hm, hmax⟩
    · refine ⟨a, List.mem_cons_self _ _, ?_⟩
      intro u hu
      rcases List.mem_cons.mp hu with rfl | h
      · exact Or.inl rfl
      · exact absurd h (List.not_mem_nil u)
    · have hneq : a.id ≠ m.id := by
        intro heq
        exact hanotin (heq ▸ List.mem_map_of_mem TxnW.id hm)
      rcases beats_total hneq with hab | hba
      · refine ⟨a, List.mem_cons_self _ _, ?_⟩
        intro u hu
        rcases List.mem_cons.mp hu with rfl | h
        · exact Or.inl rfl
        · rcases hmax u h with heq | hmu
          · have hum : u = m := nodup_map_id_eq hnd2 h hm heq
            exact Or.inr (hum ▸ hab)
          · exact Or.inr (beats_trans hab hmu)
      · refine ⟨m, List.mem_cons_of_mem _ hm, ?_⟩
        intro u hu
        rcases List.mem_cons.mp hu with rfl | h
        · exact Or.inr hba
        · exact hmax u h

theorem survives_unique {ts : List TxnW} (hnd : (ts.map TxnW.id).Nodup)
    {t u : TxnW} (ht : t ∈ ts) (hu : u ∈ ts)
    (hst : survives ts t = true) (hsu : survives ts u = true) : u = t := by
  by_cases heq : u.id = t.id
  · exact nodup_map_id_eq hnd hu ht heq
  · have h1 : beats t u = true := by
      rcases survives_spec hst u hu with h | h
      · exact absurd h heq
      · exact h
    have h2 : beats u t = true := by
      rcases survives_spec hsu t ht with h | h
      · exact absurd h.symm heq
      · exact h
    exact (beats_asymm h1 h2).elim

theorem foldl_apply_of_none {p : TxnW → Bool} {l : List TxnW}
    (hnone : ∀ u ∈ l, p u = false) (st : Int → Option Int) :
    l.foldl (fun s t => if p t then applyWrites s t.writes else s) st = st := by
  induction l generalizing st with
  | nil => rfl
  | cons a rest ih =>
    rw [List.foldl_cons, if_neg (by simp [hnone a (List.mem_cons_self _ _)])]
    exact ih (fun u hu => hnone u (List.mem_cons_of_mem _ hu)) st

theorem foldl_apply_unique {p : TxnW → Bool} {l : List TxnW} {x : TxnW}
    (hx : x ∈ l) (hpx : p x = true) (huniq : ∀ u ∈ l, p u = true → u = x)
    (hnd : l.Nodup) (st : Int → Option Int) :
    l.foldl (fun s t => if p t then applyWrites s t.writes else s) st =
      applyWrites st x.writes := by
  induction l generalizing st with
  | nil => exact absurd hx (List.not_mem_nil x)
  | cons a rest ih =>
    rcases List.mem_cons.mp hx with rfl | hxr
    · have hrest : ∀ u ∈ rest, p u = false := by
        intro u hu
        cases hpval : p u with
        | false => rfl
        | true =>
          have hux : u = x := huniq u (List.mem_cons_of_mem _ hu) hpval
          have hxnot : x ∉ rest := (List.nodup_cons.mp hnd).1
          exact absurd (hux ▸ hu) hxnot
      rw [List.foldl_cons, if_pos hpx]
      exact foldl_apply_of_none hrest _
    · have hpa : p a = false := by
        cases hpval : p a with
        | false => rfl
        | true =>
          have hax : a = x := huniq a (List.mem_cons_self _ _) hpval
          have hanot : a ∉ rest := (List.nodup_cons.mp hnd).1
          exact absurd (hax ▸ hxr) hanot
      rw [List.foldl_cons, if_neg (by simp [hpa])]
      exact ih hxr (fun u hu hpu => huniq u (List.mem_cons_of_mem _ hu) hpu)
        (List.nodup_cons.mp hnd).2 st

theorem applyWrites_empty (ws : List (Int × Int)) (k : Int) :
    applyWrites (fun _ => none) ws k = lookupWrite ws k := by
  simp only [applyWrites]
  cases h : lookupWrite ws k <;> simp [h]

/-- C4: when several transactions write overlapping keys and request commit
concurrently, at least one transaction commits successfully (the one the
conflict resolver lets survive), the surviving transaction is unique, and
afterwards every contended key holds the value written by that one successful
transaction: no key holds a value from an aborted loser and no mixture of
values from different transactions remains. -/
theorem C4_conflict_resolution (ts : List TxnW) (hne : ts ≠ [])
    (hnd : (ts.map TxnW.id).Nodup) :
    ∃ t ∈ ts, survives ts t = true ∧
      (∀ u ∈ ts, survives ts u = true → u = t) ∧
      (∀ k : Int, finalStore ts k = lookupWrite t.writes k) := by
  rcases exists_beats_all ts hnd with rfl | ⟨t, ht, hmax⟩
  · exact absurd rfl hne
  have hst : survives ts t = true := survives_of ts t hmax
  refine ⟨t, ht, hst, fun u hu hsu => survives_unique hnd ht hu hst hsu, ?_⟩
  intro k
  rw [finalStore,
    foldl_apply_unique ht hst
      (fun u hu hpu => survives_unique hnd ht hu hst hpu)
      (List.Nodup.of_map TxnW.id hnd) (fun _ => none)]
  exact applyWrites_empty t.writes k

/-- Witness for C4: two transactions both writing key 0, with priorities 5 and
7; the priority-7 transaction survives. -/
theorem C4_conflict_resolution_witness :
    ∃ t ∈ [TxnW.mk 1 5 [(0, 10)], TxnW.mk 2 7 [(0, 20)]],
      survives [TxnW.mk 1 5 [(0, 10)], TxnW.mk 2 7 [(0, 20)]] t = true ∧
        (∀ u ∈ [TxnW.mk 1 5 [(0, 10)], TxnW.mk 2 7 [(0, 20)]],
          survives [TxnW.mk 1 5 [(0, 10)], TxnW.mk 2 7 [(0, 20)]] u = true → u = t) ∧
        (∀ k : Int,
          finalStore [TxnW.mk 1 5 [(0, 10)], TxnW.mk 2 7 [(0, 20)]] k =
            lookupWrite t.writes k) :=
  C4_conflict_resolution [TxnW.mk 1 5 [(0, 10)], TxnW.mk 2 7 [(0, 20)]]
    (by decide) (by decide)

/-- C5: after a transaction that wrote intents is aborted, cleanup (both the
direct discard and the deferred compaction pass used when proactive cleanup is
disabled) leaves zero intents, and every key the transaction had updated reads
its pre-transaction committed value: the abort leaves committed data
unchanged. -/
theorem C5_abort_cleanup (committed : Int → KeyHistory) (newIntents : List Intent)
    (X : Nat) (statusOf : Nat → TransactionStatus)
    (hall : ∀ i ∈ newIntents, i.txn = X)
    (hstat : statusOf X = TransactionStatus.ABORTED) :
    countIntents (compactCleanup ⟨committed, newIntents⟩ statusOf) = 0 ∧
      countIntents (discardTxn ⟨committed, newIntents⟩ X) = 0 ∧
      (compactCleanup ⟨committed, newIntents⟩ statusOf).committed = committed ∧
      (∀ (ct : Nat → Option HybridTime) (k : Int) (rp : ReadPoint),
        readInState (compactCleanup ⟨committed, newIntents⟩ statusOf) ct k rp =
          readKey (committed k) rp) := by
  have hfil : newIntents.filter
      (fun i => statusOf i.txn != TransactionStatus.ABORTED) = [] := by
    rw [List.filter_eq_nil_iff]
    intro i hi
    rw [hall i hi, hstat]
    simp
  have hfil2 : newIntents.filter (fun i => i.txn != X) = [] := by
    rw [List.filter_eq_nil_iff]
    intro i hi
    rw [hall i hi]
    simp
  refine ⟨?_, ?_, rfl, ?_⟩
  · simp [countIntents, compactCleanup, hfil]
  · simp [countIntents, discardTxn, hfil2]
  · intro ct k rp
    simp [readInState, compactCleanup, hfil, readKeyResolved, effectiveHistory]

/-- Witness for C5: committed data 1 -> 1, 2 -> 2 at time 1; transaction 7
wrote intents 1 -> 11 and 2 -> 12 and was aborted; the reader uses read point
(3, 3). -/
theorem C5_abort_cleanup_witness :
    countIntents (compactCleanup
        ⟨fun k => if k = 1 then [⟨1, 1⟩] else if k = 2 then [⟨1, 2⟩] else [],
          [⟨7, 1, 11, 2⟩, ⟨7, 2, 12, 2⟩]⟩
        (fun t => if t = 7 then TransactionStatus.ABORTED
          else TransactionStatus.PENDING)) = 0 ∧
      countIntents (discardTxn
        ⟨fun k => if k = 1 then [⟨1, 1⟩] else if k = 2 then [⟨1, 2⟩] else [],
          [⟨7, 1, 11, 2⟩, ⟨7, 2, 12, 2⟩]⟩ 7) = 0 ∧
      (compactCleanup
        ⟨fun k => if k = 1 then [⟨1, 1⟩] else if k = 2 then [⟨1, 2⟩] else [],
          [⟨7, 1, 11, 2⟩, ⟨7, 2, 12, 2⟩]⟩
        (fun t => if t = 7 then TransactionStatus.ABORTED
          else TransactionStatus.PENDING)).committed =
        (fun k => if k = 1 then [⟨1, 1⟩] else if k = 2 then [⟨1, 2⟩] else []) ∧
      readInState (compactCleanup
        ⟨fun k => if k = 1 then [⟨1, 1⟩] else if k = 2 then [⟨1, 2⟩] else [],
          [⟨7, 1, 11, 2⟩, ⟨7, 2, 12, 2⟩]⟩
        (fun t => if t = 7 then TransactionStatus.ABORTED
          else TransactionStatus.PENDING)) (fun _ => none) 1 ⟨3, 3⟩ =
        readKey ((fun k : Int =>
          if k = 1 then [⟨1, 1⟩] else if k = 2 then [⟨1, 2⟩] else []) 1) ⟨3, 3⟩ :=
  have h := C5_abort_cleanup
    (fun k => if k = 1 then [⟨1, 1⟩] else if k = 2 then [⟨1, 2⟩] else [])
    [⟨7, 1, 11, 2⟩, ⟨7, 2, 12, 2⟩] 7
    (fun t => if t = 7 then TransactionStatus.ABORTED else TransactionStatus.PENDING)
    (by decide) (by decide)
  ⟨h.1, h.2.1, h.2.2.1, h.2.2.2 (fun _ => none) 1 ⟨3, 3⟩⟩

/-- C6: writes performed by a child transaction are not visible to other
readers when FinishChild completes (the status record of the shared id is still
PENDING, and FinishChild changed nothing but reported the child involved
partitions); after ApplyChildResult and the parent commit those writes are
visible exactly once, as a single committed version per key; the child never
commits or aborts the transaction on its own. -/
theorem C6_child_merge (r : Nat) (hr : r < kNumRows) (wt ct : HybridTime)
    (rp rp2 : ReadPoint) (hvis : ct ≤ rp2.readTime) :
    (childAfterFinish wt).1 = childWrites ⟨.PENDING, none, [], [], []⟩ wt ∧
      (childAfterFinish wt).1.status = TransactionStatus.PENDING ∧
      visibleValue (childAfterFinish wt).1 (KeyForTransactionAndIndex 0 r) rp =
        ReadResult.notFound ∧
      (childAfterCommit wt ct).status = TransactionStatus.COMMITTED ∧
      visibleValue (childAfterCommit wt ct) (KeyForTransactionAndIndex 0 r) rp2 =
        ReadResult.value (ValueForTransactionAndIndex 0 r WriteOpType.INSERT) ∧
      effectiveHistory [] (childAfterCommit wt ct).intents
          (commitOracle (childAfterCommit wt ct)) (KeyForTransactionAndIndex 0 r) =
        [⟨ct, ValueForTransactionAndIndex 0 r WriteOpType.INSERT⟩] := by
  have hr5 : r < 5 := hr
  interval_cases r <;>
    exact ⟨rfl, rfl, readKey_nil rp, rfl, readKey_singleton_value hvis, rfl⟩

/-- Witness for C6 at row 0, write time 1, commit time 2, observer read points
(1, 1) and (3, 3). -/
theorem C6_child_merge_witness :
    (childAfterFinish 1).1 = childWrites ⟨.PENDING, none, [], [], []⟩ 1 ∧
      (childAfterFinish 1).1.status = TransactionStatus.PENDING ∧
      visibleValue (childAfterFinish 1).1 (KeyForTransactionAndIndex 0 0) ⟨1, 1⟩ =
        ReadResult.notFound ∧
      (childAfterCommit 1 2).status = TransactionStatus.COMMITTED ∧
      visibleValue (childAfterCommit 1 2) (KeyForTransactionAndIndex 0 0) ⟨3, 3⟩ =
        ReadResult.value (ValueForTransactionAndIndex 0 0 WriteOpType.INSERT) ∧
      effectiveHistory [] (childAfterCommit 1 2).intents
          (commitOracle (childAfterCommit 1 2)) (KeyForTransactionAndIndex 0 0) =
        [⟨2, ValueForTransactionAndIndex 0 0 WriteOpType.INSERT⟩] :=
  C6_child_merge 0 (by decide) 1 2 ⟨1, 1⟩ ⟨3, 3⟩ (by decide)

/-- C7: for a transaction with heartbeating disabled and no commit requested,
once heartbeat_interval times missed_heartbeat_periods has elapsed a
subsequent Commit fails with Expired and the coordinator record is cleaned up
(the transaction count reaches zero); with heartbeating enabled (a heartbeat at
time th keeps the record fresh), a commit requested while within the timeout of
the last heartbeat still succeeds, however long the transaction was idle. -/
theorem C7_expiry (hbInterval missed t0 now1 th now2 : Nat)
    (hexp : t0 + transactionTimeout hbInterval missed < now1)
    (halive : now2 ≤ th + transactionTimeout hbInterval missed) :
    (requestCommit ⟨t0, .PENDING⟩ now1 (transactionTimeout hbInterval missed)).1 =
        CommitOutcome.expired ∧
      recordCount (cleanupRecord (some
        (requestCommit ⟨t0, .PENDING⟩ now1
          (transactionTimeout hbInterval missed)).2)) = 0 ∧
      (requestCommit (heartbeat ⟨t0, .PENDING⟩ th) now2
        (transactionTimeout hbInterval missed)).1 = CommitOutcome.ok := by
  have h1 : checkExpiry ⟨t0, .PENDING⟩ now1 (transactionTimeout hbInterval missed) =
      ⟨t0, .ABORTED⟩ := by
    rw [checkExpiry, if_pos ⟨rfl, hexp⟩]
  have h2 : requestCommit ⟨t0, .PENDING⟩ now1 (transactionTimeout hbInterval missed) =
      (CommitOutcome.expired, ⟨t0, .ABORTED⟩) := by
    simp [requestCommit, h1]
  have h3 : heartbeat ⟨t0, .PENDING⟩ th = ⟨max t0 th, .PENDING⟩ := by
    rw [heartbeat, if_pos rfl]
  have h4 : checkExpiry ⟨max t0 th, .PENDING⟩ now2
      (transactionTimeout hbInterval missed) = ⟨max t0 th, .PENDING⟩ := by
    have hnlt : ¬ (max t0 th + transactionTimeout hbInterval missed < now2) := by
      have hth := le_max_right t0 th
      omega
    rw [checkExpiry, if_neg (fun hcon => hnlt hcon.2)]
  refine ⟨by rw [h2], by rw [h2]; rfl, ?_⟩
  rw [h3]
  simp [requestCommit, h4]

/-- Witness for C7: heartbeat interval 2, missed periods 3 (timeout 6),
registration at time 0, expired-commit request at time 7; in the heartbeating
run a heartbeat lands at time 10 and commit is requested at time 12, twice the
timeout after registration. -/
theorem C7_expiry_witness :
    (requestCommit ⟨0, .PENDING⟩ 7 (transactionTimeout 2 3)).1 =
        CommitOutcome.expired ∧
      recordCount (cleanupRecord (some
        (requestCommit ⟨0, .PENDING⟩ 7 (transactionTimeout 2 3)).2)) = 0 ∧
      (requestCommit (heartbeat ⟨0, .PENDING⟩ 10) 12 (transactionTimeout 2 3)).1 =
        CommitOutcome.ok :=
  C7_expiry 2 3 0 7 10 12 (by decide) (by decide)

end YB
